import Mathlib

/-! Shallow embedding of `xmlschema/xpath.py` (module for enabling XPath on
schemas): the `ElementPathMixin.iter` walker, the `ElementPathContext`
walkers `_iter_descendants` and `_iter_context`, and the tag-matching
predicate `ElementPathMixin.match`.

Modelling choices:

* A Python heap of XSD component objects is modelled as an arena
  `Env : Nat → Node`: node identity is the `Nat` handle, and every
  attribute access `obj.field` becomes `(env i).field`.  Child links are
  handles, so shared objects (the same object reachable from two parents)
  and even cyclic object graphs are expressible, as in Python.
* Python generators are modelled as functions returning the list of all
  yielded items.  Recursion over an arbitrary object graph need not
  terminate in Python, so the walkers take a `fuel` bound on recursion
  depth and return `none` when the bound is hit (a run that returns
  `some` is a faithful, complete trace of the Python generator).
* `local_elements` / `local_items` (the traversal-scoped dedup registry,
  a Python list tested with `in`) is a `List Nat` of handles threaded
  through the walk.  The source classes inherit object identity `__eq__`,
  so `child not in local_elements` is an identity test, i.e. `Nat`
  equality of handles in the arena.
* Python `match` returns `True`, `False` or falls through to `None`;
  this three-valued result is `Option Bool`, and truth-testing it is
  `pyTruthy`.  (`match(tag)` with `tag = ''` raises `IndexError` in
  Python and is excluded by hypothesis wherever it matters.)
-/

/-- The capability set of a schema node as used by `xpath.py`:
`tag` (the `name`), optional `text`, the `attrib` mapping (as an ordered
association list, Python dicts preserve insertion order), the ordered
`children` (handles into the arena), the `is_global` flag and the
optional `ref` attribute (`getattr(child, 'ref', None)`). -/
structure Node where
  tag : String
  text : Option String
  tail : Option String
  attrib : List (String × String)
  children : List Nat
  is_global : Bool
  ref : Option String
deriving DecidableEq, Repr

/-- A leaf node with no content, used as the default arena filler. -/
def emptyNode : Node :=
  { tag := "", text := none, tail := none, attrib := [], children := [],
    is_global := false, ref := none }

instance : Inhabited Node := ⟨emptyNode⟩

/-- The Python heap: every handle resolves to a node object. -/
abbrev Env : Type := Nat → Node

/-- Build an arena from a list of nodes; handles beyond the list resolve
to `emptyNode`. -/
def mkEnv (l : List Node) : Env := fun i => (l.get? i).getD emptyNode

/-- An item yielded by a traversal: a node (by handle), a text string
(`yield elem.text`), or an attribute pair (`yield item` from
`elem.attrib.items()`). -/
inductive Item where
  | node (id : Nat)
  | text (s : String)
  | attr (kv : String × String)
deriving DecidableEq, Repr

/-- Python truth-testing of a `True`/`False`/`None` value. -/
def pyTruthy : Option Bool → Bool
  | none => false
  | some b => b

/-- The test of the source line checking whether the first character of
the tag is an opening brace.  (On the empty string Python raises
`IndexError`; the embedding returns `false`, and theorems about `match`
exclude the empty tag by hypothesis.) -/
def tagStartsWithBrace (t : String) : Bool :=
  match t.data with
  | [] => false
  | c :: _ => c == Char.ofNat 123

/-- Embedding of `ElementPathMixin.match(self, tag, default_namespace=None)`:
if the first character of the tag is an opening brace, return whether
`self.tag == tag`; otherwise, if `default_namespace` is truthy (not
`None` and not empty), return whether `self.tag` equals the tag or the
namespace-qualified tag; otherwise fall through, returning `None`. -/
def Node.matchTag (n : Node) (tg : String) (default_namespace : Option String) :
    Option Bool :=
  if tagStartsWithBrace tg then
    some (n.tag == tg)
  else
    match default_namespace with
    | some ns => if ns = "" then none else
        some (n.tag == tg || n.tag == "\x7b" ++ ns ++ "\x7d" ++ tg)
    | none => none

/-- The guard `tag is None or elem.match(tag)` used by `iter` (which
calls `match` with its one-argument form, so `default_namespace=None`). -/
def iterKeep (tag : Option String) (n : Node) : Bool :=
  match tag with
  | none => true
  | some t => pyTruthy (n.matchTag t none)

/-- The per-child branch shared verbatim by the loop bodies of
`safe_iter` (in `ElementPathMixin.iter`), `safe_iter_descendants` and
`safe_iter_context` (in `ElementPathContext`):

    if child.is_global:
        yield from walk(child)
    elif getattr(child, "ref", None) is not None:
        yield child        # in iter only when: tag is None or elem.match(tag)
    elif child not in local_elements:
        local_elements.append(child)
        yield from walk(child)

`walk` is the recursive generator, `parentKeep` is the
`tag is None or elem.match(tag)` guard of `iter` (constantly `true` for
the two unfiltered context walkers).  Returns the yielded items and the
updated dedup registry. -/
def child_step (env : Env) (walk : Nat → List Nat → Option (List Item × List Nat))
    (parentKeep : Bool) (c : Nat) (visited : List Nat) :
    Option (List Item × List Nat) :=
  if (env c).is_global then
    walk c visited
  else if (env c).ref.isSome then
    some (if parentKeep then [Item.node c] else [], visited)
  else if c ∈ visited then
    some ([], visited)
  else
    walk c (visited ++ [c])

/-- The `for child in elem:` loop: run `step` on each child in document
order, threading the dedup registry and concatenating yields; `none`
(fuel exhausted inside a step) aborts. -/
def walk_children (step : Nat → List Nat → Option (List Item × List Nat)) :
    List Nat → List Nat → Option (List Item × List Nat)
  | [], visited => some ([], visited)
  | c :: rest, visited =>
    match step c visited with
    | none => none
    | some (out₁, vis₁) =>
      match walk_children step rest vis₁ with
      | none => none
      | some (out₂, vis₂) => some (out₁ ++ out₂, vis₂)

/-- Embedding of `safe_iter(elem)`, the inner generator of
`ElementPathMixin.iter`:

    def safe_iter(elem):
        if tag is None or elem.match(tag):
            yield elem
        for child in elem:
            if child.is_global:
                yield from safe_iter(child)
            elif getattr(child, "ref", None) is not None:
                if tag is None or elem.match(tag):
                    yield child
            elif child not in local_elements:
                local_elements.append(child)
                yield from safe_iter(child)

Note the guard of the reference branch tests `elem` (the parent), not
`child`, exactly as in the source. -/
def safe_iter (env : Env) (tag : Option String) :
    Nat → Nat → List Nat → Option (List Item × List Nat)
  | 0, _, _ => none
  | f + 1, i, visited =>
    let n := env i
    let head := if iterKeep tag n then [Item.node i] else []
    match walk_children
        (child_step env (fun c v => safe_iter env tag f c v) (iterKeep tag n))
        n.children visited with
    | none => none
    | some (out, vis) => some (head ++ out, vis)

/-- Embedding of `safe_iter_descendants(context)`, the inner generator of
`ElementPathContext._iter_descendants`: yields the element, then its
text if not `None`, then walks the children with the shared per-child
branch (the ref branch yields unconditionally here).  The
`context.size`/`context.position` assignments are bookkeeping with no
effect on what is yielded and are omitted. -/
def safe_iter_descendants (env : Env) :
    Nat → Nat → List Nat → Option (List Item × List Nat)
  | 0, _, _ => none
  | f + 1, i, visited =>
    let n := env i
    let textItems := match n.text with
      | none => []
      | some s => [Item.text s]
    match walk_children
        (child_step env (fun c v => safe_iter_descendants env f c v) true)
        n.children visited with
    | none => none
    | some (out, vis) => some (Item.node i :: textItems ++ out, vis)

/-- Embedding of `safe_iter_context(context)`, the inner generator of
`ElementPathContext._iter_context`: yields the element, its text if not
`None`, each attribute pair from `elem.attrib.items()`, then walks the
children with the shared per-child branch. -/
def safe_iter_context (env : Env) :
    Nat → Nat → List Nat → Option (List Item × List Nat)
  | 0, _, _ => none
  | f + 1, i, visited =>
    let n := env i
    let textItems := match n.text with
      | none => []
      | some s => [Item.text s]
    let attrItems := n.attrib.map Item.attr
    match walk_children
        (child_step env (fun c v => safe_iter_context env f c v) true)
        n.children visited with
    | none => none
    | some (out, vis) => some (Item.node i :: textItems ++ attrItems ++ out, vis)

/-- Embedding of `ElementPathMixin.iter(self, tag=None)`: normalises a
star tag to `None`, starts with a fresh `local_elements = []` registry
and runs `safe_iter(self)`. -/
def ElementPathMixin.iter (env : Env) (tag : Option String) (fuel i : Nat) :
    Option (List Item × List Nat) :=
  safe_iter env (if tag = some "*" then none else tag) fuel i []

/-- Embedding of `ElementPathContext._iter_descendants(self)`: fresh
`local_items = []`, then `safe_iter_descendants(self)`. -/
def ElementPathContext.iter_descendants (env : Env) (fuel i : Nat) :
    Option (List Item × List Nat) :=
  safe_iter_descendants env fuel i []

/-- Embedding of `ElementPathContext._iter_context(self)`: fresh
`local_items = []`, then `safe_iter_context(self)`. -/
def ElementPathContext.iter_context (env : Env) (fuel i : Nat) :
    Option (List Item × List Nat) :=
  safe_iter_context env fuel i []

/-- Modelled from the spec: the naive recursive pre-order traversal a
plain tree walker would produce — "root first, then each child's subtree
in document order" — with the same fuel discipline as the walkers (used
as the reference side of the refinement claim about `iter`). -/
def naive_preorder (env : Env) : Nat → Nat → List Nat
  | 0, _ => []
  | f + 1, i => i :: (env i).children.flatMap (fun c => naive_preorder env f c)

/-- Structural equality of two nodes of the arena up to a given depth:
all scalar fields agree and the children lists are pointwise
structurally equal (at depth 0 any two nodes compare equal).  Two nodes
are structurally equal when they compare equal at every depth.  This is
distinct from identity, which is equality of handles. -/
def structEq (env : Env) : Nat → Nat → Nat → Bool
  | 0, _, _ => true
  | d + 1, i, j =>
    let a := env i
    let b := env j
    a.tag == b.tag && a.text == b.text && a.tail == b.tail &&
      a.attrib == b.attrib && a.is_global == b.is_global && a.ref == b.ref &&
      a.children.length == b.children.length &&
      (a.children.zip b.children).all (fun p => structEq env d p.1 p.2)

/-- Arena exhibiting the filter bug of `iter`: the root matches the
namespace-qualified filter tag, its reference child does not. -/
def envBug : Env := mkEnv [
  { emptyNode with tag := "\x7bu\x7da", children := [1] },
  { emptyNode with tag := "\x7bu\x7db", ref := some "b" }]

/-- Arena with a reference cycle passing through a global node: node 0
is global with child 1; node 1 is a reference node (back to node 0 by
name) whose child edge also loops back to node 0. -/
def envRefCycle : Env := mkEnv [
  { emptyNode with tag := "A", is_global := true, children := [1] },
  { emptyNode with tag := "B", ref := some "A", children := [0] }]

/-- A two-node line: node 0 with single child node 1. -/
def envLine : Env := mkEnv [
  { emptyNode with tag := "a", children := [1] },
  { emptyNode with tag := "b" }]

/-- Rank function for the two-node arenas: node 0 above everything else. -/
def rank01 : Nat → Nat := fun i => if i = 0 then 1 else 0

/-- Arena with two structurally equal but distinct leaf objects (handles
1 and 2) under one parent. -/
def envTwins : Env := mkEnv [
  { emptyNode with tag := "p", children := [1, 2] },
  { emptyNode with tag := "t", text := some "x" },
  { emptyNode with tag := "t", text := some "x" }]

/-- Arena where the same local node object (handle 1) is linked as a
child twice from the same parent. -/
def envShared : Env := mkEnv [
  { emptyNode with tag := "p", children := [1, 1] },
  { emptyNode with tag := "d" }]

/-- Arena where a node flagged both global and reference (a malformed
shape) is reached twice. -/
def envGlobalTwice : Env := mkEnv [
  { emptyNode with tag := "p", children := [1, 1] },
  { emptyNode with tag := "g", is_global := true, ref := some "r" }]

/-- Arena where a non-global reference child (handle 1, which has its
own child, handle 2) is reached twice. -/
def envRefTwice : Env := mkEnv [
  { emptyNode with tag := "p", children := [1, 1] },
  { emptyNode with tag := "r", ref := some "x", children := [2] },
  { emptyNode with tag := "c" }]

/-- Arena for the full-context item order: a root with text, one
attribute and one child. -/
def envCtx : Env := mkEnv [
  { emptyNode with tag := "e", text := some "T", attrib := [("k", "v")], children := [1] },
  { emptyNode with tag := "c" }]

/-! Generic lemmas about the per-child branch and the children loop. -/

/-- Any property of the dedup registry that is preserved by appending a
local non-global, non-reference handle is preserved by a child step,
provided the recursive walk preserves it. -/
theorem child_step_pres (env : Env) (walk : Nat → List Nat → Option (List Item × List Nat))
    (P : List Nat → Prop)
    (hP : ∀ w c, P w → (env c).is_global = false → (env c).ref = none → P (w ++ [c]))
    (hwalk : ∀ c w o w', walk c w = some (o, w') → P w → P w') :
    ∀ pk c v o v', child_step env walk pk c v = some (o, v') → P v → P v' := by
  intro pk c v o v' h hv
  unfold child_step at h
  split at h
  · exact hwalk c v o v' h hv
  · split at h
    · cases h; exact hv
    · split at h
      · cases h; exact hv
      · next hng hnr _ =>
        refine hwalk c (v ++ [c]) o v' h (hP v c hv ?_ ?_)
        · simpa using hng
        · exact Option.not_isSome_iff_eq_none.mp hnr

/-- The children loop preserves any registry property preserved by each
step. -/
theorem walk_children_pres (step : Nat → List Nat → Option (List Item × List Nat))
    (P : List Nat → Prop)
    (hstep : ∀ c w o w', step c w = some (o, w') → P w → P w') :
    ∀ cs v o v', walk_children step cs v = some (o, v') → P v → P v' := by
  intro cs
  induction cs with
  | nil =>
    intro v o v' h hv
    simp only [walk_children, Option.some.injEq, Prod.mk.injEq] at h
    exact h.2 ▸ hv
  | cons c rest ih =>
    intro v o v' h hv
    simp only [walk_children] at h
    cases hc : step c v with
    | none => simp [hc] at h
    | some p =>
      obtain ⟨o₁, v₁⟩ := p
      simp only [hc] at h
      cases hr : walk_children step rest v₁ with
      | none => simp [hr] at h
      | some q =>
        obtain ⟨o₂, v₂⟩ := q
        simp only [hr, Option.some.injEq, Prod.mk.injEq] at h
        obtain ⟨rfl, rfl⟩ := h
        exact ih v₁ o₂ v₂ hr (hstep c v o₁ v₁ hc hv)

/-- The walker of `iter` preserves any registry property preserved by
appending a local handle. -/
theorem safe_iter_pres (env : Env) (tag : Option String) (P : List Nat → Prop)
    (hP : ∀ w c, P w → (env c).is_global = false → (env c).ref = none → P (w ++ [c])) :
    ∀ fuel i v o v', safe_iter env tag fuel i v = some (o, v') → P v → P v' := by
  intro fuel
  induction fuel with
  | zero => intro i v o v' h; simp [safe_iter] at h
  | succ f ih =>
    intro i v o v' h hv
    simp only [safe_iter] at h
    cases hw : walk_children
        (child_step env (fun c v => safe_iter env tag f c v) (iterKeep tag (env i)))
        (env i).children v with
    | none => simp [hw] at h
    | some p =>
      obtain ⟨out, vis⟩ := p
      simp only [hw, Option.some.injEq, Prod.mk.injEq] at h
      obtain ⟨rfl, rfl⟩ := h
      exact walk_children_pres _ P
        (fun c w o w' hcw => child_step_pres env _ P hP
          (fun c w o w' hcw' => ih c w o w' hcw') _ c w o w' hcw)
        (env i).children v out vis hw hv

/-- The dedup registry only grows during a walk of `iter`: the final
registry extends the initial one. -/
theorem safe_iter_visited_extends (env : Env) (tag : Option String) :
    ∀ fuel i v o v', safe_iter env tag fuel i v = some (o, v') →
      ∃ ext, v' = v ++ ext := by
  intro fuel i v o v' h
  exact safe_iter_pres env tag (fun w => ∃ ext, w = v ++ ext)
    (fun w c hw _ _ => by
      obtain ⟨ext, rfl⟩ := hw
      exact ⟨ext ++ [c], by simp⟩)
    fuel i v o v' h ⟨[], by simp⟩

/-- Handles appended to the dedup registry are never global: the walk of
`iter` keeps the registry free of global nodes. -/
theorem safe_iter_visited_no_global (env : Env) (tag : Option String) :
    ∀ fuel i v o v', safe_iter env tag fuel i v = some (o, v') →
      (∀ j ∈ v, (env j).is_global = false) →
      ∀ j ∈ v', (env j).is_global = false := by
  intro fuel i v o v' h hv
  exact safe_iter_pres env tag (fun w => ∀ j ∈ w, (env j).is_global = false)
    (fun w c hw hg _ => by
      intro j hj
      rcases List.mem_append.mp hj with hj | hj
      · exact hw j hj
      · simpa [List.mem_singleton.mp hj] using hg)
    fuel i v o v' h hv

/-- An unfiltered walk of `iter` always yields its start node first. -/
theorem safe_iter_head (env : Env) :
    ∀ fuel i v o v', safe_iter env none fuel i v = some (o, v') →
      ∃ rest, o = Item.node i :: rest := by
  intro fuel i v o v' h
  cases fuel with
  | zero => simp [safe_iter] at h
  | succ f =>
    simp only [safe_iter, iterKeep] at h
    cases hw : walk_children
        (child_step env (fun c v => safe_iter env none f c v) true)
        (env i).children v with
    | none => simp [hw] at h
    | some p =>
      obtain ⟨out, vis⟩ := p
      simp only [hw, Option.some.injEq, Prod.mk.injEq, List.singleton_append] at h
      obtain ⟨rfl, rfl⟩ := h
      exact ⟨out, rfl⟩

/-- C1 (code bug evaluation): filtering `iter` by the qualified tag of
the root yields the root and also its reference child, although the
child itself does not match the filter — the reference branch of
`safe_iter` tests `elem.match(tag)` on the parent, not on the child, so
a non-matching reference child is yielded whenever its parent matches,
contradicting the docstring of `iter` ("only XSD elements whose matches
tag are returned from the iterator"). -/
theorem C1_reference_child_filter_bug :
    ElementPathMixin.iter envBug (some "\x7bu\x7da") 2 0 =
      some ([Item.node 0, Item.node 1], []) ∧
    iterKeep (some "\x7bu\x7da") (envBug 1) = false ∧
    pyTruthy ((envBug 1).matchTag "\x7bu\x7da" none) = false := by
  refine ⟨by decide, by decide, by decide⟩

/-- When every node fails the tag filter, each child step of `iter`
yields nothing. -/
theorem child_step_out_nil (env : Env)
    (walk : Nat → List Nat → Option (List Item × List Nat))
    (hwalk : ∀ c w o w', walk c w = some (o, w') → o = []) :
    ∀ c v o v', child_step env walk false c v = some (o, v') → o = [] := by
  intro c v o v' h
  unfold child_step at h
  split at h
  · exact hwalk c v o v' h
  · split at h
    · cases h; rfl
    · split at h
      · cases h; rfl
      · exact hwalk c (v ++ [c]) o v' h

/-- When every step of the children loop yields nothing, the loop yields
nothing. -/
theorem walk_children_out_nil (step : Nat → List Nat → Option (List Item × List Nat))
    (hstep : ∀ c w o w', step c w = some (o, w') → o = []) :
    ∀ cs v o v', walk_children step cs v = some (o, v') → o = [] := by
  intro cs
  induction cs with
  | nil =>
    intro v o v' h
    simp only [walk_children, Option.some.injEq, Prod.mk.injEq] at h
    exact h.1.symm
  | cons c rest ih =>
    intro v o v' h
    simp only [walk_children] at h
    cases hc : step c v with
    | none => simp [hc] at h
    | some p =>
      obtain ⟨o₁, v₁⟩ := p
      simp only [hc] at h
      cases hr : walk_children step rest v₁ with
      | none => simp [hr] at h
      | some q =>
        obtain ⟨o₂, v₂⟩ := q
        simp only [hr, Option.some.injEq, Prod.mk.injEq] at h
        obtain ⟨rfl, rfl⟩ := h
        simp [hstep c v o₁ v₁ hc, ih v₁ o₂ v₂ hr]

/-- A walk of `iter` whose tag filter rejects every node yields nothing
at all. -/
theorem safe_iter_out_nil (env : Env) (t : String)
    (hk : ∀ n : Node, iterKeep (some t) n = false) :
    ∀ fuel i v o v', safe_iter env (some t) fuel i v = some (o, v') → o = [] := by
  intro fuel
  induction fuel with
  | zero => intro i v o v' h; simp [safe_iter] at h
  | succ f ih =>
    intro i v o v' h
    simp only [safe_iter] at h
    cases hw : walk_children
        (child_step env (fun c v => safe_iter env (some t) f c v) (iterKeep (some t) (env i)))
        (env i).children v with
    | none => simp [hw] at h
    | some p =>
      obtain ⟨out, vis⟩ := p
      simp only [hw, Option.some.injEq, Prod.mk.injEq] at h
      obtain ⟨rfl, rfl⟩ := h
      have hout : out = [] := by
        have hstep : ∀ c w o w',
            child_step env (fun c v => safe_iter env (some t) f c v)
              (iterKeep (some t) (env i)) c w = some (o, w') → o = [] := by
          rw [hk (env i)]
          exact child_step_out_nil env _ (fun c w o w' hcw => ih c w o w' hcw)
        exact walk_children_out_nil _ hstep (env i).children v out vis hw
      simp [hk (env i), hout]

/-- C10: for an unqualified tag (one not starting with an opening
brace), `match` returns a true comparison only when a non-empty default
namespace is supplied; with `default_namespace` absent (`None`) or empty
it falls through to `None` — a falsy value — regardless of the node's
tag.  Since `iter` calls `match` with no default namespace, a filtered
iteration by an unqualified tag yields no elements at all, even when
tags are equal. -/
theorem C10_match_unqualified (n : Node) (t : String)
    (h0 : t ≠ "") (h1 : tagStartsWithBrace t = false) :
    n.matchTag t none = none ∧
    n.matchTag t (some "") = none ∧
    (∀ dns, pyTruthy (n.matchTag t dns) = true →
      ∃ ns, dns = some ns ∧ ns ≠ "") ∧
    (∀ (env : Env) (fuel i : Nat) (v : List Nat) (o : List Item) (v' : List Nat),
      safe_iter env (some t) fuel i v = some (o, v') → o = []) := by
  refine ⟨by simp [Node.matchTag, h1], by simp [Node.matchTag, h1], ?_, ?_⟩
  · intro dns htr
    cases dns with
    | none => simp [Node.matchTag, h1, pyTruthy] at htr
    | some ns =>
      refine ⟨ns, rfl, ?_⟩
      intro hns
      simp [Node.matchTag, h1, hns, pyTruthy] at htr
  · intro env fuel i v o v' h
    refine safe_iter_out_nil env t ?_ fuel i v o v' h
    intro m
    simp [iterKeep, Node.matchTag, h1, pyTruthy]

/-- C10 witness: concrete instances of the fall-through behaviour for a
node with tag `b` and the equal unqualified filter tag `b`. -/
theorem C10_match_unqualified_witness :
    (envLine 1).matchTag "b" none = none ∧
    (envLine 1).matchTag "b" (some "") = none := by
  have h := C10_match_unqualified (envLine 1) "b" (by decide) (by decide)
  exact ⟨h.1, h.2.1⟩

/-- A child step succeeds whenever the recursive walk succeeds on every
child it can actually expand (a global child, or a local non-reference
child); reference children and already-registered children succeed
without recursion. -/
theorem child_step_isSome (env : Env)
    (walk : Nat → List Nat → Option (List Item × List Nat))
    (pk : Bool) (c : Nat) (v : List Nat)
    (hw : (env c).is_global = true ∨ (env c).ref = none →
      ∀ w, (walk c w).isSome) :
    (child_step env walk pk c v).isSome := by
  unfold child_step
  split
  · next hg => exact hw (Or.inl hg) v
  · split
    · simp
    · split
      · simp
      · next hng hnr _ =>
        exact hw (Or.inr (Option.not_isSome_iff_eq_none.mp hnr)) (v ++ [c])

/-- The children loop succeeds when every step succeeds. -/
theorem walk_children_isSome (step : Nat → List Nat → Option (List Item × List Nat)) :
    ∀ cs v, (∀ c ∈ cs, ∀ w, (step c w).isSome) →
      (walk_children step cs v).isSome := by
  intro cs
  induction cs with
  | nil => intro v _; simp [walk_children]
  | cons c rest ih =>
    intro v h
    simp only [walk_children]
    obtain ⟨p, hc⟩ := Option.isSome_iff_exists.mp (h c (by simp) v)
    obtain ⟨o₁, v₁⟩ := p
    simp only [hc]
    obtain ⟨q, hr⟩ :=
      Option.isSome_iff_exists.mp (ih v₁ (fun c' hc' w => h c' (by simp [hc']) w))
    obtain ⟨o₂, v₂⟩ := q
    simp [hr]

/-- Generic termination of a fuelled walker built from the shared child
step: if every expandable node (global, or without a reference) has
children of strictly smaller rank, the walker succeeds once the fuel
exceeds the start node's rank.  Child edges out of non-global reference
nodes are exempt, because the walkers never expand those nodes. -/
theorem walker_term (env : Env) (rank : Nat → Nat)
    (H : ∀ j, (env j).is_global = true ∨ (env j).ref = none →
      ∀ c ∈ (env j).children, rank c < rank j)
    (F : Nat → Nat → List Nat → Option (List Item × List Nat))
    (pkF : Nat → Nat → Bool)
    (HF : ∀ f i v,
      (walk_children (child_step env (fun c w => F f c w) (pkF f i))
        (env i).children v).isSome →
      (F (f + 1) i v).isSome) :
    ∀ fuel i v, rank i < fuel →
      (∀ c ∈ (env i).children, rank c < rank i) →
      (F fuel i v).isSome := by
  intro fuel
  induction fuel with
  | zero => intro i v h _; exact absurd h (Nat.not_lt_zero _)
  | succ f ih =>
    intro i v hf hc
    apply HF
    apply walk_children_isSome
    intro c hcs w
    apply child_step_isSome
    intro hx w'
    show (F f c w').isSome
    exact ih c w' (by have := hc c hcs; omega) (H c hx)

/-- C2: every traversal call terminates on every tree the walkers
accept — `tree` meaning that expandable child edges are well-founded
(witnessed by a rank), while child edges below non-global reference
nodes are unconstrained, so reference cycles, including reference
cycles passing through global nodes, are covered.  All three walkers
(the one of `iter` for any tag filter, `_iter_descendants`, and
`_iter_context`) complete with a finite list of items. -/
theorem C2_traversal_terminates (env : Env) (rank : Nat → Nat) (tag : Option String)
    (H : ∀ j, (env j).is_global = true ∨ (env j).ref = none →
      ∀ c ∈ (env j).children, rank c < rank j)
    (fuel i : Nat) (v : List Nat)
    (Hi : ∀ c ∈ (env i).children, rank c < rank i)
    (hfuel : rank i < fuel) :
    (safe_iter env tag fuel i v).isSome ∧
    (safe_iter_descendants env fuel i v).isSome ∧
    (safe_iter_context env fuel i v).isSome := by
  refine ⟨?_, ?_, ?_⟩
  · refine walker_term env rank H (safe_iter env tag)
      (fun f j => iterKeep tag (env j)) ?_ fuel i v hfuel Hi
    intro f j w h
    obtain ⟨⟨out, vis⟩, hw⟩ := Option.isSome_iff_exists.mp h
    simp [safe_iter, hw]
  · refine walker_term env rank H (safe_iter_descendants env)
      (fun _ _ => true) ?_ fuel i v hfuel Hi
    intro f j w h
    obtain ⟨⟨out, vis⟩, hw⟩ := Option.isSome_iff_exists.mp h
    simp [safe_iter_descendants, hw]
  · refine walker_term env rank H (safe_iter_context env)
      (fun _ _ => true) ?_ fuel i v hfuel Hi
    intro f j w h
    obtain ⟨⟨out, vis⟩, hw⟩ := Option.isSome_iff_exists.mp h
    simp [safe_iter_context, hw]

/-- C2 witness: a malformed arena whose child edges form a cycle that
passes through a global node and is closed by a reference node — the
traversal of all three walkers still terminates. -/
theorem C2_traversal_terminates_witness :
    (safe_iter envRefCycle none 2 0 []).isSome ∧
    (safe_iter_descendants envRefCycle 2 0 []).isSome ∧
    (safe_iter_context envRefCycle 2 0 []).isSome := by
  refine C2_traversal_terminates envRefCycle rank01 none ?_ 2 0 [] ?_ (by decide)
  · intro j hj c hc
    rcases j with _ | (_ | j)
    · have : c = 1 := by simpa [envRefCycle, mkEnv, emptyNode] using hc
      subst this
      decide
    · exfalso
      rcases hj with hg | hr
      · simp [envRefCycle, mkEnv, emptyNode] at hg
      · simp [envRefCycle, mkEnv, emptyNode] at hr
    · exfalso
      simp [envRefCycle, mkEnv, emptyNode] at hc
  · intro c hc
    have : c = 1 := by simpa [envRefCycle, mkEnv, emptyNode] using hc
    subst this
    decide

/-- C4: within one traversal call an ordinary local child (non-global,
non-reference) is expanded exactly once — on first encounter it is
appended to the registry and recursed into, on any later encounter of
the same handle it is skipped entirely (nothing yielded, no recursion,
registry unchanged) — and the registry only ever grows during the walk,
so a handle once registered stays registered. -/
theorem C4_local_child_expanded_once (env : Env) (tag : Option String)
    (walk : Nat → List Nat → Option (List Item × List Nat))
    (pk : Bool) (c : Nat) (v : List Nat)
    (hg : (env c).is_global = false) (hr : (env c).ref = none) :
    (c ∉ v → child_step env walk pk c v = walk c (v ++ [c])) ∧
    (c ∈ v → child_step env walk pk c v = some ([], v)) ∧
    (∀ fuel i w o w', safe_iter env tag fuel i w = some (o, w') →
      ∃ ext, w' = w ++ ext) := by
  refine ⟨?_, ?_, safe_iter_visited_extends env tag⟩
  · intro hcv
    simp [child_step, hg, hr, hcv]
  · intro hcv
    simp [child_step, hg, hr, hcv]

/-- C4 witness: a parent linking the same local leaf twice — the first
step recurses after registering the handle, the second step is a
complete no-op. -/
theorem C4_local_child_expanded_once_witness :
    child_step envShared (safe_iter envShared none 1) true 1 []
      = safe_iter envShared none 1 1 [1] ∧
    child_step envShared (safe_iter envShared none 1) true 1 [1]
      = some ([], [1]) := by
  have h1 := C4_local_child_expanded_once envShared none
    (safe_iter envShared none 1) true 1 [] (by decide) (by decide)
  have h2 := C4_local_child_expanded_once envShared none
    (safe_iter envShared none 1) true 1 [1] (by decide) (by decide)
  exact ⟨h1.1 (by decide), h2.2.1 (by decide)⟩

/-- C5: a global child is recursed into unconditionally with the
registry passed through unchanged; the registry never holds global
handles; and a global child reached twice under one parent is expanded
both times, each expansion yielding the global node again.  No
hypothesis constrains the child's `ref`, so the statement covers a node
flagged both global and reference: the global branch wins because it is
tested first, and nothing is raised. -/
theorem C5_global_child_always_expanded (env : Env) (tag : Option String)
    (walk : Nat → List Nat → Option (List Item × List Nat))
    (pk : Bool) (c : Nat) (v : List Nat)
    (hg : (env c).is_global = true) :
    child_step env walk pk c v = walk c v ∧
    (∀ fuel i w o w', safe_iter env tag fuel i w = some (o, w') →
      (∀ j ∈ w, (env j).is_global = false) →
      ∀ j ∈ w', (env j).is_global = false) ∧
    (∀ p f o₁ v₁ o₂ v₂, (env p).children = [c, c] →
      safe_iter env none f c v = some (o₁, v₁) →
      safe_iter env none f c v₁ = some (o₂, v₂) →
      safe_iter env none (f + 1) p v = some (Item.node p :: (o₁ ++ o₂), v₂) ∧
      (∃ r₁, o₁ = Item.node c :: r₁) ∧ (∃ r₂, o₂ = Item.node c :: r₂)) := by
  refine ⟨by simp [child_step, hg], safe_iter_visited_no_global env tag, ?_⟩
  intro p f o₁ v₁ o₂ v₂ hp hw₁ hw₂
  refine ⟨?_, safe_iter_head env f c v o₁ v₁ hw₁, safe_iter_head env f c v₁ o₂ v₂ hw₂⟩
  have hstep1 : child_step env (fun c' w => safe_iter env none f c' w) true c v
      = safe_iter env none f c v := by simp [child_step, hg]
  have hstep2 : child_step env (fun c' w => safe_iter env none f c' w) true c v₁
      = safe_iter env none f c v₁ := by simp [child_step, hg]
  have hwc : walk_children
      (child_step env (fun c' w => safe_iter env none f c' w) true) [c, c] v
      = some (o₁ ++ o₂, v₂) := by
    simp [walk_children, hstep1, hw₁, hstep2, hw₂]
  simp [safe_iter, iterKeep, hp, hwc]

/-- C5 witness: a node flagged both global and reference, linked twice
from one parent, is expanded as a global both times. -/
theorem C5_global_child_always_expanded_witness :
    child_step envGlobalTwice (safe_iter envGlobalTwice none 1) true 1 []
      = safe_iter envGlobalTwice none 1 1 [] ∧
    safe_iter envGlobalTwice none 2 0 []
      = some ([Item.node 0, Item.node 1, Item.node 1], []) ∧
    (envGlobalTwice 1).ref.isSome = true := by
  have h := C5_global_child_always_expanded envGlobalTwice none
    (safe_iter envGlobalTwice none 1) true 1 [] (by decide)
  refine ⟨h.1, ?_, by decide⟩
  have h3 := h.2.2 0 1 [Item.node 1] [] [Item.node 1] []
    (by decide) (by decide) (by decide)
  simpa using h3.1

/-- C6: a non-global child whose `ref` is set is yielded as itself (its
own handle, never its target) by the per-child branch of every walker,
its children are never traversed (the statement holds for an arbitrary
recursive walk, which is never invoked), it is never added to the
registry, and every encounter yields it again — shown for a parent
linking it twice in all three traversal modes (for `iter`, with no tag
filter). -/
theorem C6_reference_child_is_leaf (env : Env) (c p : Nat) (v : List Nat)
    (walk : Nat → List Nat → Option (List Item × List Nat))
    (f : Nat)
    (hg : (env c).is_global = false) (hr : (env c).ref.isSome = true)
    (hp : (env p).children = [c, c]) (ht : (env p).text = none)
    (ha : (env p).attrib = []) :
    child_step env walk true c v = some ([Item.node c], v) ∧
    safe_iter env none (f + 1) p v
      = some ([Item.node p, Item.node c, Item.node c], v) ∧
    safe_iter_descendants env (f + 1) p v
      = some ([Item.node p, Item.node c, Item.node c], v) ∧
    safe_iter_context env (f + 1) p v
      = some ([Item.node p, Item.node c, Item.node c], v) := by
  have hstep : ∀ (wk : Nat → List Nat → Option (List Item × List Nat)) (w : List Nat),
      child_step env wk true c w = some ([Item.node c], w) := by
    intro wk w
    simp [child_step, hg, hr]
  have hwc : ∀ (wk : Nat → List Nat → Option (List Item × List Nat)) (w : List Nat),
      walk_children (child_step env wk true) [c, c] w
        = some ([Item.node c, Item.node c], w) := by
    intro wk w
    simp [walk_children, hstep]
  refine ⟨hstep walk v, ?_, ?_, ?_⟩
  · simp [safe_iter, iterKeep, hp, hwc]
  · simp [safe_iter_descendants, hp, ht, hwc]
  · simp [safe_iter_context, hp, ht, ha, hwc]

/-- C6 witness: a reference child owning a child of its own (handle 2)
is yielded twice as itself, its subtree untouched, in all three modes —
with fuel 1, so no recursion into it was even possible. -/
theorem C6_reference_child_is_leaf_witness :
    child_step envRefTwice (safe_iter envRefTwice none 0) true 1 []
      = some ([Item.node 1], []) ∧
    safe_iter envRefTwice none 1 0 []
      = some ([Item.node 0, Item.node 1, Item.node 1], []) ∧
    safe_iter_descendants envRefTwice 1 0 []
      = some ([Item.node 0, Item.node 1, Item.node 1], []) ∧
    safe_iter_context envRefTwice 1 0 []
      = some ([Item.node 0, Item.node 1, Item.node 1], []) :=
  C6_reference_child_is_leaf envRefTwice 1 0 [] (safe_iter envRefTwice none 0) 0
    (by decide) (by decide) (by decide) (by decide) (by decide)

/-- C3: the dedup registry is keyed by node identity, not structural
equality — two distinct handles with structurally equal nodes, linked as
the two children of one parent, are each yielded and each expanded by
the children loop, while the very same handle linked twice is expanded
only the first time, the second occurrence contributing nothing. -/
theorem C3_dedup_keyed_by_identity (env : Env) (i j : Nat)
    (v v₁ v₂ : List Nat) (o₁ o₂ : List Item) (f : Nat) (pk : Bool)
    (hne : i ≠ j)
    (hgi : (env i).is_global = false) (hri : (env i).ref = none)
    (hgj : (env j).is_global = false) (hrj : (env j).ref = none)
    (hse : ∀ d, structEq env d i j = true)
    (hiv : i ∉ v) (hjv : j ∉ v₁)
    (hw₁ : safe_iter env none f i (v ++ [i]) = some (o₁, v₁))
    (hw₂ : safe_iter env none f j (v₁ ++ [j]) = some (o₂, v₂)) :
    walk_children (child_step env (fun c w => safe_iter env none f c w) pk)
      [i, j] v = some (o₁ ++ o₂, v₂) ∧
    (∃ r₁, o₁ = Item.node i :: r₁) ∧
    (∃ r₂, o₂ = Item.node j :: r₂) ∧
    walk_children (child_step env (fun c w => safe_iter env none f c w) pk)
      [i, i] v = some (o₁, v₁) := by
  have hstep1 : child_step env (fun c w => safe_iter env none f c w) pk i v
      = some (o₁, v₁) := by
    simp [child_step, hgi, hri, hiv, hw₁]
  have hiv₁ : i ∈ v₁ := by
    obtain ⟨ext, rfl⟩ := safe_iter_visited_extends env none f i (v ++ [i]) o₁ v₁ hw₁
    simp
  have hstep2 : child_step env (fun c w => safe_iter env none f c w) pk j v₁
      = some (o₂, v₂) := by
    simp [child_step, hgj, hrj, hjv, hw₂]
  have hstepdup : child_step env (fun c w => safe_iter env none f c w) pk i v₁
      = some ([], v₁) := by
    simp [child_step, hgi, hri, hiv₁]
  refine ⟨?_, safe_iter_head env f i (v ++ [i]) o₁ v₁ hw₁,
    safe_iter_head env f j (v₁ ++ [j]) o₂ v₂ hw₂, ?_⟩
  · simp [walk_children, hstep1, hstep2]
  · simp [walk_children, hstep1, hstepdup]

/-- C3 witness: two structurally equal leaves at distinct handles 1 and
2 are both yielded; the same handle 1 twice yields once. -/
theorem C3_dedup_keyed_by_identity_witness :
    walk_children
      (child_step envTwins (fun c w => safe_iter envTwins none 1 c w) true)
      [1, 2] [] = some ([Item.node 1] ++ [Item.node 2], [1, 2]) ∧
    walk_children
      (child_step envTwins (fun c w => safe_iter envTwins none 1 c w) true)
      [1, 1] [] = some ([Item.node 1], [1]) := by
  have h := C3_dedup_keyed_by_identity envTwins 1 2 [] [1] [1, 2]
    [Item.node 1] [Item.node 2] 1 true
    (by decide) (by decide) (by decide) (by decide) (by decide)
    (fun d => by cases d with | zero => rfl | succ d => rfl)
    (by decide) (by decide) (by decide) (by decide)
  exact ⟨h.1, h.2.2.2⟩

/-- Items yielded by the children loop all satisfy any predicate that
holds for items yielded by each step. -/
theorem walk_children_items (step : Nat → List Nat → Option (List Item × List Nat))
    (Q : Item → Prop)
    (hstep : ∀ c w o w', step c w = some (o, w') → ∀ it ∈ o, Q it) :
    ∀ cs v o v', walk_children step cs v = some (o, v') → ∀ it ∈ o, Q it := by
  intro cs
  induction cs with
  | nil =>
    intro v o v' h
    simp only [walk_children, Option.some.injEq, Prod.mk.injEq] at h
    obtain ⟨rfl, rfl⟩ := h
    simp
  | cons c rest ih =>
    intro v o v' h
    simp only [walk_children] at h
    cases hc : step c v with
    | none => simp [hc] at h
    | some p =>
      obtain ⟨o₁, v₁⟩ := p
      simp only [hc] at h
      cases hr : walk_children step rest v₁ with
      | none => simp [hr] at h
      | some q =>
        obtain ⟨o₂, v₂⟩ := q
        simp only [hr, Option.some.injEq, Prod.mk.injEq] at h
        obtain ⟨rfl, rfl⟩ := h
        intro it hit
        rcases List.mem_append.mp hit with h1 | h2
        · exact hstep c v o₁ v₁ hc it h1
        · exact ih v₁ o₂ v₂ hr it h2

/-- Items yielded by a child step satisfy any predicate holding for node
items and preserved by the recursive walk. -/
theorem child_step_items (env : Env)
    (walk : Nat → List Nat → Option (List Item × List Nat)) (Q : Item → Prop)
    (hnode : ∀ c, Q (Item.node c))
    (hwalk : ∀ c w o w', walk c w = some (o, w') → ∀ it ∈ o, Q it) :
    ∀ pk c v o v', child_step env walk pk c v = some (o, v') → ∀ it ∈ o, Q it := by
  intro pk c v o v' h it hit
  unfold child_step at h
  split at h
  · exact hwalk c v o v' h it hit
  · split at h
    · cases h
      cases pk with
      | false => simp at hit
      | true =>
        simp only [if_true, List.mem_singleton] at hit
        subst hit
        exact hnode c
    · split at h
      · cases h; simp at hit
      · exact hwalk c (v ++ [c]) o v' h it hit

/-- C8: the plain node-iteration mode (`iter`, any tag filter) yields
only node items — in particular never a text content item and never an
attribute pair. -/
theorem C8_plain_iteration_yields_only_nodes (env : Env) (tag : Option String) :
    ∀ fuel i v o v', safe_iter env tag fuel i v = some (o, v') →
      ∀ it ∈ o, ∃ k, it = Item.node k := by
  intro fuel
  induction fuel with
  | zero => intro i v o v' h; simp [safe_iter] at h
  | succ f ih =>
    intro i v o v' h
    simp only [safe_iter] at h
    cases hw : walk_children
        (child_step env (fun c v => safe_iter env tag f c v) (iterKeep tag (env i)))
        (env i).children v with
    | none => simp [hw] at h
    | some p =>
      obtain ⟨out, vis⟩ := p
      simp only [hw, Option.some.injEq, Prod.mk.injEq] at h
      obtain ⟨rfl, rfl⟩ := h
      intro it hit
      rcases List.mem_append.mp hit with hh | ho
      · by_cases hk : iterKeep tag (env i) = true
        · rw [if_pos hk] at hh
          simp only [List.mem_singleton] at hh
          exact ⟨i, hh⟩
        · rw [if_neg hk] at hh
          simp at hh
      · exact walk_children_items _ _
          (fun c w o w' hcw => child_step_items env _ _ (fun k => ⟨k, rfl⟩)
            (fun c w o w' hcw' => ih c w o w' hcw') _ c w o w' hcw)
          (env i).children v out vis hw it ho

/-- C8 witness: a concrete item of a concrete plain iteration is a node
item. -/
theorem C8_plain_iteration_yields_only_nodes_witness :
    ∃ k, Item.node 1 = Item.node k :=
  C8_plain_iteration_yields_only_nodes envLine none 2 0 []
    [Item.node 0, Item.node 1] [1] (by decide) (Item.node 1) (by decide)

/-- C9: in full-context mode each visited node produces, in this exact
order: the node itself; then one text item if its text is not `None`;
then one attribute item per attribute pair, in mapping order; then the
items of its children walk. -/
theorem C9_context_item_order (env : Env) (fuel i : Nat) (v : List Nat)
    (o : List Item) (v' : List Nat)
    (h : safe_iter_context env (fuel + 1) i v = some (o, v')) :
    ∃ rest,
      walk_children
        (child_step env (fun c w => safe_iter_context env fuel c w) true)
        (env i).children v = some (rest, v') ∧
      o = Item.node i ::
        ((match (env i).text with
          | none => []
          | some s => [Item.text s]) ++
         ((env i).attrib.map Item.attr ++ rest)) := by
  simp only [safe_iter_context] at h
  cases hw : walk_children
      (child_step env (fun c v => safe_iter_context env fuel c v) true)
      (env i).children v with
  | none => simp [hw] at h
  | some p =>
    obtain ⟨out, vis⟩ := p
    simp only [hw, Option.some.injEq, Prod.mk.injEq] at h
    obtain ⟨rfl, rfl⟩ := h
    exact ⟨out, rfl, by simp⟩

/-- C9 witness: a node with text, one attribute and one child yields the
node, its text, its attribute pair and then the child's items. -/
theorem C9_context_item_order_witness :
    ∃ rest,
      walk_children
        (child_step envCtx (fun c w => safe_iter_context envCtx 1 c w) true)
        (envCtx 0).children [] = some (rest, [1]) ∧
      [Item.node 0, Item.text "T", Item.attr ("k", "v"), Item.node 1]
        = Item.node 0 ::
          ((match (envCtx 0).text with
            | none => []
            | some s => [Item.text s]) ++
           ((envCtx 0).attrib.map Item.attr ++ rest)) :=
  C9_context_item_order envCtx 1 0 []
    [Item.node 0, Item.text "T", Item.attr ("k", "v"), Item.node 1] [1] (by decide)

/-- Unfolding of the naive pre-order at positive fuel. -/
theorem naive_preorder_pos (env : Env) (f i : Nat) (h : 0 < f) :
    naive_preorder env f i
      = i :: (env i).children.flatMap (fun c => naive_preorder env (f - 1) c) := by
  cases f with
  | zero => exact absurd h (by simp)
  | succ f' => rfl

/-- Refinement core: on an arena whose child edges are ranked and whose
reachable nodes (the naive pre-order) are all local, non-reference and
pairwise distinct handles not in the starting registry, `safe_iter`
without a tag filter yields exactly the naive pre-order and registers
exactly the strict descendants, in order. -/
theorem safe_iter_preorder (env : Env) (rank : Nat → Nat)
    (hrank : ∀ j, ∀ c ∈ (env j).children, rank c < rank j) :
    ∀ fuel i v, rank i < fuel →
      (∀ j ∈ (naive_preorder env fuel i).drop 1,
        (env j).is_global = false ∧ (env j).ref = none) →
      (naive_preorder env fuel i).Nodup →
      (∀ j ∈ (naive_preorder env fuel i).drop 1, j ∉ v) →
      safe_iter env none fuel i v
        = some ((naive_preorder env fuel i).map Item.node,
                v ++ (naive_preorder env fuel i).drop 1) := by
  intro fuel
  induction fuel with
  | zero => intro i v h _ _ _; exact absurd h (Nat.not_lt_zero _)
  | succ f ih =>
    intro i v hf hflag hnodup hdisj
    have CL : ∀ (cs : List Nat) (w : List Nat),
        (∀ c ∈ cs, rank c < f) →
        (∀ j ∈ cs.flatMap (fun c => naive_preorder env f c),
          (env j).is_global = false ∧ (env j).ref = none) →
        (cs.flatMap (fun c => naive_preorder env f c)).Nodup →
        (∀ j ∈ cs.flatMap (fun c => naive_preorder env f c), j ∉ w) →
        walk_children (child_step env (fun c u => safe_iter env none f c u) true)
          cs w
          = some ((cs.flatMap (fun c => naive_preorder env f c)).map Item.node,
                  w ++ cs.flatMap (fun c => naive_preorder env f c)) := by
      intro cs
      induction cs with
      | nil => intro w _ _ _ _; simp [walk_children]
      | cons c rest ihc =>
        intro w hrk hfl hnd hdj
        have hrc : rank c < f := hrk c (by simp)
        have hf0 : 0 < f := Nat.lt_of_le_of_lt (Nat.zero_le _) hrc
        have hPc := naive_preorder_pos env f c hf0
        have hcP : c ∈ naive_preorder env f c := by rw [hPc]; simp
        have hmemB : ∀ x, x ∈ naive_preorder env f c →
            x ∈ (c :: rest).flatMap (fun c => naive_preorder env f c) := by
          intro x hx
          simp only [List.flatMap_cons, List.mem_append]
          exact Or.inl hx
        have hmemB' : ∀ x, x ∈ rest.flatMap (fun c => naive_preorder env f c) →
            x ∈ (c :: rest).flatMap (fun c => naive_preorder env f c) := by
          intro x hx
          simp only [List.flatMap_cons, List.mem_append]
          exact Or.inr hx
        have hflc := hfl c (hmemB c hcP)
        have hcw : c ∉ w := hdj c (hmemB c hcP)
        have hstep : child_step env (fun c u => safe_iter env none f c u) true c w
            = safe_iter env none f c (w ++ [c]) := by
          simp [child_step, hflc.1, hflc.2, hcw]
        have hnd' : (naive_preorder env f c
            ++ rest.flatMap (fun c => naive_preorder env f c)).Nodup := by
          simpa only [List.flatMap_cons] using hnd
        have hndc : (naive_preorder env f c).Nodup :=
          (List.nodup_append.mp hnd').1
        have hctail : c ∉ (naive_preorder env f c).drop 1 := by
          have h2 := hndc
          rw [hPc] at h2
          rw [hPc, List.drop_one, List.tail_cons]
          exact (List.nodup_cons.mp h2).1
        have hihc := ih c (w ++ [c]) hrc
          (fun j hj => hfl j (hmemB j (List.mem_of_mem_drop hj)))
          hndc
          (fun j hj => by
            have hjP := List.mem_of_mem_drop hj
            rw [List.mem_append]
            push_neg
            refine ⟨hdj j (hmemB j hjP), ?_⟩
            simp only [List.mem_singleton]
            intro hEq
            exact hctail (hEq ▸ hj))
        have hvc : (w ++ [c]) ++ (naive_preorder env f c).drop 1
            = w ++ naive_preorder env f c := by
          conv_rhs => rw [hPc]
          rw [hPc]
          simp
        have hrest := ihc (w ++ naive_preorder env f c)
          (fun c' h' => hrk c' (by simp [h']))
          (fun j hj => hfl j (hmemB' j hj))
          (List.nodup_append.mp hnd').2.1
          (fun j hj => by
            rw [List.mem_append]
            push_neg
            refine ⟨hdj j (hmemB' j hj), ?_⟩
            intro hjc
            exact (List.nodup_append.mp hnd').2.2 hjc hj)
        simp only [walk_children, hstep, hihc, hvc, hrest, List.flatMap_cons,
          List.map_append, List.append_assoc]
    have hch : ∀ c ∈ (env i).children, rank c < f := by
      intro c hc
      have h1 := hrank i c hc
      omega
    have hPi : naive_preorder env (f + 1) i
        = i :: (env i).children.flatMap (fun c => naive_preorder env f c) := rfl
    have hflag' : ∀ j ∈ (env i).children.flatMap (fun c => naive_preorder env f c),
        (env j).is_global = false ∧ (env j).ref = none := by
      intro j hj
      exact hflag j (by rw [hPi]; simpa using hj)
    have hnodup' : ((env i).children.flatMap (fun c => naive_preorder env f c)).Nodup := by
      rw [hPi] at hnodup
      exact hnodup.of_cons
    have hdisj' : ∀ j ∈ (env i).children.flatMap (fun c => naive_preorder env f c),
        j ∉ v := by
      intro j hj
      exact hdisj j (by rw [hPi]; simpa using hj)
    have hcw := CL (env i).children v hch hflag' hnodup' hdisj'
    rw [hPi]
    simp [safe_iter, iterKeep, hcw]

/-- C7: on a tree with no global nodes, no reference nodes, and no node
object reachable from two parents (the naive pre-order enumerates
pairwise distinct handles; child edges are well-founded via a rank),
the unfiltered `iter` yields exactly the nodes of the naive recursive
pre-order traversal — same order, hence same count. -/
theorem C7_iter_matches_naive_preorder (env : Env) (rank : Nat → Nat)
    (fuel i : Nat)
    (hrank : ∀ j, ∀ c ∈ (env j).children, rank c < rank j)
    (hfuel : rank i < fuel)
    (hflag : ∀ j ∈ naive_preorder env fuel i,
      (env j).is_global = false ∧ (env j).ref = none)
    (hnodup : (naive_preorder env fuel i).Nodup) :
    ElementPathMixin.iter env none fuel i
      = some ((naive_preorder env fuel i).map Item.node,
              (naive_preorder env fuel i).drop 1) := by
  have h := safe_iter_preorder env rank hrank fuel i []
    hfuel (fun j hj => hflag j (List.mem_of_mem_drop hj)) hnodup
    (fun j _ => by simp)
  simpa [ElementPathMixin.iter] using h

/-- C7 witness: on a concrete plain two-node tree, `iter` returns
exactly the naive pre-order. -/
theorem C7_iter_matches_naive_preorder_witness :
    ElementPathMixin.iter envLine none 2 0
      = some ([Item.node 0, Item.node 1], [1]) := by
  have hr : ∀ j, ∀ c ∈ (envLine j).children, rank01 c < rank01 j := by
    intro j c hc
    rcases j with _ | (_ | j)
    · have hc1 : c = 1 := by simpa [envLine, mkEnv, emptyNode, List.get?] using hc
      subst hc1
      decide
    · exact absurd hc (by simp [envLine, mkEnv, emptyNode, List.get?])
    · exact absurd hc (by simp [envLine, mkEnv, emptyNode, List.get?])
  have h := C7_iter_matches_naive_preorder envLine rank01 2 0 hr (by decide)
    (by decide) (by decide)
  rw [show naive_preorder envLine 2 0 = [0, 1] from by decide] at h
  simpa using h
